import Mathlib

/-!
Verification of the numerical core of `iris-ued` (`src/core.py`).

The Python source is shallowly embedded over exact rationals:

* numpy float arrays become `List ℚ`; 2-D arrays become `List (List ℚ)`;
* `numpy.exp` (a transcendental external routine) is abstracted as an
  explicit function parameter `E : ℚ → ℚ` of the definitions that use it;
* `scipy.optimize.curve_fit` / `scipy.optimize.minimize` are external
  solvers, abstracted as explicit function parameters; a solver raising
  `RuntimeError` is modelled as the solver returning `none`;
* an operation with no numeric result (numpy NaN from a mean over an
  empty selection, or an out-of-bounds index error) is modelled as
  `Option.none`.
-/

/-- numpy `linspace(start, stop, num)` with `endpoint=True`:
`num` evenly spaced rationals from `start` to `stop` inclusive. -/
def linspace (start stop : ℚ) (num : ℕ) : List ℚ :=
  if num = 0 then []
  else if num = 1 then [start]
  else (List.range num).map fun i : ℕ =>
    start + (i : ℚ) * (stop - start) / ((num : ℚ) - 1)

/-- `⌊√n⌋` as the largest `m ≤ n` with `m² ≤ n`, by a fold that keeps
the last such `m` (ascending scan, so the largest). -/
def floorSqrt (n : ℕ) : ℕ :=
  (List.range (n + 1)).foldl (fun acc m => if m * m ≤ n then m else acc) 0

/-- numpy `around(sqrt(q), decimals=0)` for `q ≥ 0`: the nearest natural
number to `√q`, ties rounded to even (numpy banker's rounding).
`⌊√q⌋ = ⌊√⌊q⌋⌋`, and the fractional side is decided by comparing
`4·q` with `(2·⌊√q⌋+1)²`. Junk value for `q < 0` (numpy would give NaN;
never reached: inputs are sums of squares). -/
def npRoundSqrt (q : ℚ) : ℕ :=
  let m := floorSqrt (⌊q⌋).toNat
  if 4 * q < (((2 * m + 1) ^ 2 : ℕ) : ℚ) then m
  else if (((2 * m + 1) ^ 2 : ℕ) : ℚ) < 4 * q then m + 1
  else if m % 2 = 0 then m else m + 1

/-- numpy `ndarray.min()` on a 1-D array (junk 0 on the empty array,
where numpy raises). -/
def npMin (l : List ℚ) : ℚ :=
  match l with
  | [] => 0
  | x :: xs => xs.foldl min x

/-- numpy `ndarray.max()` on a 1-D array (junk 0 on the empty array,
where numpy raises). -/
def npMax (l : List ℚ) : ℚ :=
  match l with
  | [] => 0
  | x :: xs => xs.foldl max x

/-- numpy `unique`: the sorted list of distinct values of the input. -/
def npUnique (l : List ℚ) : List ℚ :=
  (List.insertionSort (· ≤ ·) l).dedup

/-- numpy `interp(x, xp, fp)`: piecewise-linear interpolation with
edge-value clamping outside `[xp.head, xp.last]` (assumes `xp`
increasing, like numpy). Junk 0 when a list is empty (numpy raises). -/
def npInterp (x : ℚ) : List ℚ → List ℚ → ℚ
  | [], _ => 0
  | _ :: _, [] => 0
  | [_], y0 :: _ => y0
  | _ :: _ :: _, [_] => 0
  | x0 :: x1 :: xs, y0 :: y1 :: ys =>
    if x ≤ x0 then y0
    else if x ≤ x1 then y0 + (y1 - y0) * (x - x0) / (x1 - x0)
    else npInterp x (x1 :: xs) (y1 :: ys)

/-- numpy `argmin(abs(l - t))`: index of the first element of `l`
minimizing the distance to `t` (junk 0 on the empty array). -/
def argminAbs (l : List ℚ) (t : ℚ) : ℕ :=
  match l with
  | [] => 0
  | x :: xs =>
    (xs.enum.foldl
      (fun acc p => if |p.2 - t| < acc.2 then (p.1 + 1, |p.2 - t|) else acc)
      ((0 : ℕ), |x - t|)).1

/-- numpy integer (fancy) indexing of a 1-D array at a possibly negative
index: `-k` counts from the end; out of range raises, modelled `none`. -/
def npIdx (l : List ℚ) (k : ℤ) : Option ℚ :=
  let j := if 0 ≤ k then k else k + l.length
  if 0 ≤ j ∧ j < l.length then l[j.toNat]? else none

/-- numpy `arange(a, b)` over integers: `[a, a+1, …, b-1]`. -/
def npArange (a b : ℤ) : List ℤ :=
  (List.range (b - a).toNat).map fun i => a + i

-- ---------------------------------------------------------------------------
--           HELPER FUNCTIONS  (core.py lines 12-32)
-- ---------------------------------------------------------------------------

/-- `core.py` `Gaussian`: maximal height 1. `E` abstracts `numpy.exp`. -/
def Gaussian (E : ℚ → ℚ) (x xc width_g : ℚ) : ℚ :=
  E ((-((x - xc) ^ 2)) / ((2 * width_g) ^ 2))

/-- `core.py` `Lorentzian`: maximal height 1. -/
def Lorentzian (x xc width_l : ℚ) : ℚ :=
  ((width_l / 2) ^ 2) / ((x - xc) ^ 2 + (width_l / 2) ^ 2)

/-- `core.py` `pseudoVoigt`: 50/50 blend of Gaussian and Lorentzian plus
a constant. -/
def pseudoVoigt (E : ℚ → ℚ) (x height xc width_g width_l : ℚ)
    (constant : ℚ := 0) : ℚ :=
  height * ((1/2) * Gaussian E x xc width_g + (1/2) * Lorentzian x xc width_l)
    + constant

/-- `core.py` `biexp`: `a·exp(-b(x-f)) + c·exp(-d(x-f)) + e`. -/
def biexp (E : ℚ → ℚ) (x : ℚ) (a b c d e f : ℚ) : ℚ :=
  a * E (-(b * (x - f))) + c * E (-(d * (x - f))) + e

/-- `core.py` `bilor`: sum of two Lorentzians plus a constant. -/
def bilor (x center amp1 amp2 width1 width2 const : ℚ) : ℚ :=
  amp1 * Lorentzian x center width1 + amp2 * Lorentzian x center width2 + const

-- ---------------------------------------------------------------------------
--           RADIAL CURVE CLASS  (core.py lines 48-76)
-- ---------------------------------------------------------------------------

/-- `core.py` `RadialCurve`: an (x, y) curve with display metadata. -/
structure RadialCurve where
  xdata : List ℚ
  ydata : List ℚ
  name : String
  color : String
deriving DecidableEq, Repr

/-- `core.py` `RadialCurve.__sub__`: interpolate the subtrahend onto the
minuend's x grid and subtract pointwise; metadata of the left operand is
kept. -/
def RadialCurve.sub (a b : RadialCurve) : RadialCurve :=
  ⟨a.xdata,
   List.zipWith (fun ya v => ya - v) a.ydata
     (a.xdata.map fun x => npInterp x b.xdata b.ydata),
   a.name, a.color⟩

-- ---------------------------------------------------------------------------
--           FIND CENTER OF DIFFRACTION PATTERN  (core.py lines 177-234)
-- ---------------------------------------------------------------------------

/-- Row-major enumeration of the `s × s` index pairs scanned by
`numpy.where` on an `s × s` boolean matrix. -/
def pixelPairs (s : ℕ) : List (ℕ × ℕ) :=
  (List.range s).flatMap fun i => (List.range s).map fun j => (i, j)

/-- Entry `j` of `linspace(1, s, s)`: the `xMat` value of column `j`
(and the `yMat` value of row `j`) in `circ`'s `meshgrid`. -/
def gridCoord (s j : ℕ) : ℚ :=
  (linspace 1 s s).getD j 0

/-- `circ`'s residual `(xMat-xgscaled)^2 + (yMat-ygscaled)^2 - rgscaled^2`
at matrix entry `(i, j)` (`core.py` line 230). -/
def circResidual (s : ℕ) (xg yg rg scalefactor : ℚ) (i j : ℕ) : ℚ :=
  (gridCoord s j - xg * scalefactor) ^ 2 + (gridCoord s i - yg * scalefactor) ^ 2
    - (rg * scalefactor) ^ 2

/-- The pixels picked by `core.py` line 231,
`n.where((residual < 10) & (yMat > 550))`, in `numpy.where`'s row-major
order. Note the SIGNED comparison `residual < 10`. -/
def circSelect (s : ℕ) (xg yg rg scalefactor : ℚ) : List (ℕ × ℕ) :=
  (pixelPairs s).filter fun p =>
    decide (circResidual s xg yg rg scalefactor p.1 p.2 < 10 ∧
            (550 : ℚ) < gridCoord s p.1)

/-- Modelled from the spec (claim C1's words), for comparison with
`circSelect`: pixels whose residual has ABSOLUTE VALUE below the
tolerance 10 and whose row coordinate exceeds 550. -/
def circSelectSpec (s : ℕ) (xg yg rg scalefactor : ℚ) : List (ℕ × ℕ) :=
  (pixelPairs s).filter fun p =>
    decide (|circResidual s xg yg rg scalefactor p.1 p.2| < 10 ∧
            (550 : ℚ) < gridCoord s p.1)

/-- `core.py` `circ`: inverse of the mean image intensity over the pixel
selection. `none` models the absence of a numeric result: numpy's NaN
from `mean` of an empty selection (and the index error of a gather
outside a non-square image's bounds). -/
def circ (xg yg rg : ℚ) (im : List (List ℚ)) (scalefactor : ℚ := 20) :
    Option ℚ :=
  let s := im.length
  let sel := circSelect s xg yg rg scalefactor
  match sel.mapM (fun p => (im[p.1]?).bind fun row => row[p.2]?) with
  | none => none
  | some vals =>
    if vals = [] then none else some (1 / (vals.sum / (vals.length : ℚ)))

/-- `core.py` `fCenter`: scale the guess down, minimize the ring metric
with a derivative-free optimizer (abstracted as the `optimizer`
parameter, standing for `scipy.optimize.minimize(..., 'Nelder-Mead')`),
scale the result back up, and overwrite the radius with the original
guess `rg` (line 203). The objective `c1` calls `circ` without
forwarding `scalefactor`, so `circ` runs at its own default scale 20. -/
def fCenter
    (optimizer : ((ℚ × ℚ × ℚ) → Option ℚ) → (ℚ × ℚ × ℚ) → (ℚ × ℚ × ℚ))
    (xg yg rg : ℚ) (im : List (List ℚ)) (scalefactor : ℚ := 20) :
    ℚ × ℚ × ℚ :=
  let start := (xg / scalefactor, yg / scalefactor, rg / scalefactor)
  let c1 : (ℚ × ℚ × ℚ) → Option ℚ := fun x => circ x.1 x.2.1 x.2.2 im
  let res := optimizer c1 start
  (res.1 * scalefactor, res.2.1 * scalefactor, rg)

-- ---------------------------------------------------------------------------
--           Grid and selection lemmas
-- ---------------------------------------------------------------------------

theorem mem_pixelPairs {s i j : ℕ} :
    (i, j) ∈ pixelPairs s ↔ i < s ∧ j < s := by
  simp [pixelPairs, List.mem_flatMap, List.mem_map, List.mem_range, Prod.mk.injEq]

theorem linspace_length (start stop : ℚ) (num : ℕ) :
    (linspace start stop num).length = num := by
  unfold linspace
  split
  · simp [*]
  · split
    · simp [*]
    · rw [List.length_map, List.length_range]

theorem gridCoord_eq {s j : ℕ} (hj : j < s) : gridCoord s j = j + 1 := by
  have hs0 : s ≠ 0 := by omega
  unfold gridCoord linspace
  rw [if_neg hs0]
  by_cases hs1 : s = 1
  · subst hs1
    have hj0 : j = 0 := by omega
    subst hj0
    simp
  · rw [if_neg hs1]
    rw [List.getD_eq_getElem?_getD, List.getElem?_map, List.getElem?_range hj]
    have h2 : 2 ≤ s := by omega
    have hne : ((s : ℚ) - 1) ≠ 0 := by
      have : (2 : ℚ) ≤ (s : ℚ) := by exact_mod_cast h2
      linarith
    simp only [Option.map_some', Option.getD_some]
    field_simp
    ring

-- ---------------------------------------------------------------------------
--           Claims C1, C2, C7, C9
-- ---------------------------------------------------------------------------

/-- C1 counterexample: `circ`'s pixel selection (`core.py` line 231) tests
the SIGNED residual `residual < 10`, not its absolute value: at a 551-row
image with candidate `(0, 0, 100)` at scale 20, the pixel `(550, 0)` has
residual `-3696398` — far below `-10` — yet is selected, so the code
selection differs from the spec's absolute-value selection. -/
theorem circSelect_counterexample :
    circSelect 551 0 0 100 20 ≠ circSelectSpec 551 0 0 100 20 := by
  have h550 : (550 : ℕ) < 551 := by norm_num
  have h0 : (0 : ℕ) < 551 := by norm_num
  have hres : circResidual 551 0 0 100 20 550 0 = -3696398 := by
    unfold circResidual
    rw [gridCoord_eq h0, gridCoord_eq h550]
    norm_num
  have hrow : gridCoord 551 550 = 551 := by
    rw [gridCoord_eq h550]; norm_num
  intro heq
  have h1 : ((550, 0) : ℕ × ℕ) ∈ circSelect 551 0 0 100 20 := by
    refine List.mem_filter.mpr ⟨mem_pixelPairs.mpr ⟨h550, h0⟩, ?_⟩
    simp only [decide_eq_true_eq]
    exact ⟨by rw [hres]; norm_num, by rw [hrow]; norm_num⟩
  rw [heq] at h1
  have h2 := (List.mem_filter.mp h1).2
  simp only [decide_eq_true_eq] at h2
  rw [hres] at h2
  norm_num at h2

/-- C1 (amended): `circ` selects exactly the pixels `(i, j)` of the
`s × s` grid whose residual `((j+1) - x·scale)² + ((i+1) - y·scale)² -
(r·scale)²` is (signedly) below the tolerance 10 — so every pixel well
inside the circle also qualifies — and whose 1-based row coordinate
`i+1` exceeds 550; the returned value is the reciprocal of the mean
intensity over that selection (no value when the selection is empty). -/
theorem circ_selection_and_value :
    (∀ s xg yg rg sc i j, ((i, j) ∈ circSelect s xg yg rg sc ↔
        i < s ∧ j < s ∧
        (((j : ℚ) + 1) - xg * sc) ^ 2 + (((i : ℚ) + 1) - yg * sc) ^ 2
          - (rg * sc) ^ 2 < 10 ∧
        (550 : ℚ) < (i : ℚ) + 1)) ∧
    (∀ xg yg rg im sc, circ xg yg rg im sc =
      match (circSelect im.length xg yg rg sc).mapM
          (fun p => (im[p.1]?).bind fun row => row[p.2]?) with
      | none => none
      | some vals =>
        if vals = [] then none
        else some (1 / (vals.sum / (vals.length : ℚ)))) := by
  constructor
  · intro s xg yg rg sc i j
    unfold circSelect
    rw [List.mem_filter]
    constructor
    · rintro ⟨hmem, hcond⟩
      obtain ⟨hi, hj⟩ := mem_pixelPairs.mp hmem
      simp only [decide_eq_true_eq] at hcond
      unfold circResidual at hcond
      rw [gridCoord_eq hj, gridCoord_eq hi] at hcond
      exact ⟨hi, hj, hcond.1, hcond.2⟩
    · rintro ⟨hi, hj, hres, hrow⟩
      refine ⟨mem_pixelPairs.mpr ⟨hi, hj⟩, ?_⟩
      simp only [decide_eq_true_eq]
      unfold circResidual
      rw [gridCoord_eq hj, gridCoord_eq hi]
      exact ⟨hres, hrow⟩
  · intro xg yg rg im sc
    rfl

/-- C2 (code bug): on a small image no pixel can satisfy the row cutoff
`yMat > 550`, the selection is empty, and `circ`'s `n.mean` of an empty
gather is NaN, so `circ` propagates a non-number (modelled `none`) to
the optimizer instead of the +infinity sentinel the spec requires. -/
theorem circ_empty_selection_nan :
    circ 0 0 1 [[0, 0, 0], [0, 0, 0], [0, 0, 0]] = none := by
  with_unfolding_all rfl

/-- C7: `fCenter` overwrites the optimizer's radius output with the
caller's guessed radius (`core.py` line 203): the third component of the
result equals `rg` exactly, for every optimizer and every image. -/
theorem fCenter_radius_passthrough
    (optimizer : ((ℚ × ℚ × ℚ) → Option ℚ) → (ℚ × ℚ × ℚ) → (ℚ × ℚ × ℚ))
    (xg yg rg : ℚ) (im : List (List ℚ)) (sc : ℚ) :
    (fCenter optimizer xg yg rg im sc).2.2 = rg := rfl

/-- C9: the objective `fCenter` hands to the simplex optimizer is `circ`
evaluated at the metric's own default scale 20, for EVERY `scalefactor`
argument `sc` — `sc` only rescales the start point and the returned
center, never the metric — so the divide/multiply round trip matches
the metric's internal scaling only when `sc = 20`. -/
theorem fCenter_objective_scale20
    (optimizer : ((ℚ × ℚ × ℚ) → Option ℚ) → (ℚ × ℚ × ℚ) → (ℚ × ℚ × ℚ))
    (xg yg rg : ℚ) (im : List (List ℚ)) (sc : ℚ) :
    fCenter optimizer xg yg rg im sc =
      ((optimizer (fun v => circ v.1 v.2.1 v.2.2 im 20)
          (xg / sc, yg / sc, rg / sc)).1 * sc,
       (optimizer (fun v => circ v.1 v.2.1 v.2.2 im 20)
          (xg / sc, yg / sc, rg / sc)).2.1 * sc,
       rg) := rfl

-- ---------------------------------------------------------------------------
--               RADIAL AVERAGING  (core.py lines 240-296)
-- ---------------------------------------------------------------------------

/-- Row-major `numpy.ndenumerate` over a 2-D array: triples
`(i, j, value)`. -/
def enumPixels (im : List (List ℚ)) : List (ℕ × ℕ × ℚ) :=
  (List.range im.length).flatMap fun i =>
    (List.range ((im.getD i []).length)).map fun j =>
      (i, j, (im.getD i []).getD j 0)

/-- The rounded-radius matrix `R` of `radialAverage` (`core.py` lines
261-266): `x = linspace(0, shape0, shape0)`, `y = linspace(0, shape1,
shape1)`, `X, Y = meshgrid(x, y)` (so `X[i][j] = x[j]`, `Y[i][j] = y[i]`),
`R = around(sqrt((X-xc)² + (Y-yc)²))`. `R` therefore has `shape1` rows
of `shape0` entries each — the TRANSPOSE of the image's shape. -/
def radialR (im : List (List ℚ)) (xc yc : ℚ) : List (List ℚ) :=
  let x := linspace 0 im.length im.length
  let y := linspace 0 (im.headD []).length (im.headD []).length
  y.map fun yi => x.map fun xj =>
    ((npRoundSqrt ((xj - xc) ^ 2 + (yi - yc) ^ 2) : ℕ) : ℚ)

/-- The radius value `R[i][j]` (total version, junk outside bounds). -/
def radialValue (im : List (List ℚ)) (xc yc : ℚ) (i j : ℕ) : ℚ :=
  ((radialR im xc yc).getD i []).getD j 0

/-- The per-pixel accumulation loop of `radialAverage` (`core.py` lines
282-293): pixels with row index `i < center[0]` are skipped; otherwise
the pixel's radius is looked up in `R` (`none` models the index error
when `(i, j)` is outside `R`'s bounds) and the intensity is added — and
the count bumped — at every bin position of `unique_radii` holding that
radius (`accumulation[ind] += value`, `bincount[ind] += 1`). -/
def radialLoop (u : List ℚ) (R : List (List ℚ)) (xc : ℚ) :
    List (ℕ × ℕ × ℚ) → List ℚ × List ℚ → Option (List ℚ × List ℚ)
  | [], st => some st
  | p :: ps, st =>
    if (p.1 : ℚ) < xc then radialLoop u R xc ps st
    else
      match (R[p.1]?).bind fun row => row[p.2.1]? with
      | none => none
      | some r =>
        radialLoop u R xc ps
          (List.zipWith (fun ui ai => if ui = r then ai + p.2.2 else ai) u st.1,
           List.zipWith (fun ui ci => if ui = r then ci + 1 else ci) u st.2)

/-- `core.py` `radialAverage`: bin pixel intensities by rounded radius,
skipping the rows above `center[0]`, with bin counts initialized to 1,
and return the curve of per-bin `accumulation / bincount`. -/
def radialAverage (im : List (List ℚ)) (name : String)
    (center : ℚ × ℚ := (562, 549)) : Option RadialCurve :=
  let R := radialR im center.1 center.2
  let unique_radii := npUnique R.flatten
  match radialLoop unique_radii R center.1 (enumPixels im)
      (List.replicate unique_radii.length 0,
       List.replicate unique_radii.length 1) with
  | none => none
  | some st =>
    some ⟨unique_radii, List.zipWith (fun a c => a / c) st.1 st.2,
          name ++ " radial average", "b"⟩

-- ---------------------------------------------------------------------------
--           List helper lemmas for the loop characterization
-- ---------------------------------------------------------------------------

theorem mem_enumPixels {im : List (List ℚ)} {i j : ℕ} {v : ℚ} :
    (i, j, v) ∈ enumPixels im ↔
      i < im.length ∧ j < (im.getD i []).length ∧ v = (im.getD i []).getD j 0 := by
  simp [enumPixels, List.mem_flatMap, List.mem_map, List.mem_range,
    Prod.mk.injEq]
  constructor
  · rintro ⟨a, ha, b, hb, rfl, rfl, rfl⟩
    exact ⟨ha, hb, rfl⟩
  · rintro ⟨hi, hj, rfl⟩
    exact ⟨i, hi, j, hj, rfl, rfl, rfl⟩

theorem zipWith_same_fuse (f g : ℚ → ℚ → ℚ) :
    ∀ (u acc : List ℚ),
      List.zipWith f u (List.zipWith g u acc) =
        List.zipWith (fun ui ai => f ui (g ui ai)) u acc
  | [], _ => rfl
  | _ :: _, [] => rfl
  | a :: u, b :: acc => by
    simp only [List.zipWith]
    exact congrArg _ (zipWith_same_fuse f g u acc)

theorem zipWith_congr_fun {f g : ℚ → ℚ → ℚ}
    (h : ∀ a b, f a b = g a b) :
    ∀ (u acc : List ℚ), List.zipWith f u acc = List.zipWith g u acc
  | [], _ => rfl
  | _ :: _, [] => rfl
  | a :: u, b :: acc => by
    simp only [List.zipWith, h a b]
    exact congrArg _ (zipWith_congr_fun h u acc)

theorem zipWith_add_zero :
    ∀ (u acc : List ℚ), List.zipWith (fun ui ai => ai + 0) u acc =
      List.zipWith (fun ui ai => ai) u acc :=
  zipWith_congr_fun fun _ b => add_zero b

theorem zipWith_replicate_right (f : ℚ → ℚ → ℚ) (c : ℚ) :
    ∀ (u : List ℚ), List.zipWith f u (List.replicate u.length c) =
      u.map fun ui => f ui c
  | [] => rfl
  | a :: u => by
    simp only [List.length_cons, List.replicate_succ, List.zipWith, List.map]
    exact congrArg _ (zipWith_replicate_right f c u)

theorem npUnique_sorted (l : List ℚ) : List.Sorted (· < ·) (npUnique l) := by
  have h1 : List.Sorted (· ≤ ·) (List.insertionSort (· ≤ ·) l) :=
    List.sorted_insertionSort (· ≤ ·) l
  have h2 : List.Sublist (npUnique l) (List.insertionSort (· ≤ ·) l) :=
    List.dedup_sublist _
  exact List.Sorted.lt_of_le (h1.sublist h2) (List.nodup_dedup _)

theorem npUnique_nodup (l : List ℚ) : (npUnique l).Nodup :=
  List.nodup_dedup _

theorem zipWith_id_of_length :
    ∀ (u acc : List ℚ), acc.length = u.length →
      List.zipWith (fun _ ai => ai) u acc = acc
  | [], [], _ => rfl
  | [], _ :: _, h => by simp at h
  | _ :: _, [], h => by simp at h
  | a :: u, b :: acc, h => by
    simp only [List.zipWith]
    exact congrArg _ (zipWith_id_of_length u acc (by simpa using h))

-- ---------------------------------------------------------------------------
--           Loop characterization lemmas
-- ---------------------------------------------------------------------------

/-- Whether the loop processes pixel `p` (row index not above the center
row) and then bins it at radius value `w`. -/
def binsAt (R : List (List ℚ)) (xc : ℚ) (w : ℚ) (p : ℕ × ℕ × ℚ) : Bool :=
  decide (xc ≤ (p.1 : ℚ)) && decide ((R.getD p.1 []).getD p.2.1 0 = w)

/-- If some processed pixel indexes `R` out of bounds, the loop raises
(returns `none`). -/
theorem radialLoop_none (u : List ℚ) (R : List (List ℚ)) (xc : ℚ) :
    ∀ (ps : List (ℕ × ℕ × ℚ)) (st : List ℚ × List ℚ),
      (∃ p ∈ ps, ¬((p.1 : ℚ) < xc) ∧
        ((R[p.1]?).bind fun row => row[p.2.1]?) = none) →
      radialLoop u R xc ps st = none := by
  intro ps
  induction ps with
  | nil => rintro st ⟨p, hp, -⟩; exact absurd hp (List.not_mem_nil p)
  | cons q ps ih =>
    rintro st ⟨p, hp, hproc, hbad⟩
    rcases List.mem_cons.mp hp with rfl | hmem
    · rw [radialLoop, if_neg hproc, hbad]
    · rw [radialLoop]
      split
      · exact ih st ⟨p, hmem, hproc, hbad⟩
      · split
        · rfl
        · exact ih _ ⟨p, hmem, hproc, hbad⟩

/-- If every processed pixel's `R` lookup is in bounds, the loop
succeeds and each bin holds the incoming state plus the intensity sum
(resp. the count) of the pixels binned there. -/
theorem radialLoop_eq (u : List ℚ) (R : List (List ℚ)) (xc : ℚ) :
    ∀ (ps : List (ℕ × ℕ × ℚ)) (acc cnt : List ℚ),
      acc.length = u.length → cnt.length = u.length →
      (∀ p ∈ ps, ¬((p.1 : ℚ) < xc) →
        p.1 < R.length ∧ p.2.1 < (R.getD p.1 []).length) →
      radialLoop u R xc ps (acc, cnt) = some
        (List.zipWith (fun ui ai =>
            ai + ((ps.filter (binsAt R xc ui)).map fun p => p.2.2).sum) u acc,
         List.zipWith (fun ui ci =>
            ci + ((ps.filter (binsAt R xc ui)).length : ℚ)) u cnt) := by
  intro ps
  induction ps with
  | nil =>
    intro acc cnt hacc hcnt _
    simp only [radialLoop, List.filter_nil, List.map_nil, List.sum_nil,
      List.length_nil, Nat.cast_zero, add_zero]
    rw [zipWith_id_of_length u acc hacc, zipWith_id_of_length u cnt hcnt]
  | cons q ps ih =>
    intro acc cnt hacc hcnt hb
    by_cases hq : (q.1 : ℚ) < xc
    · have hqskip : ∀ w, binsAt R xc w q = false := by
        intro w
        unfold binsAt
        rw [decide_eq_false (not_le.mpr hq), Bool.false_and]
      rw [radialLoop, if_pos hq,
        ih acc cnt hacc hcnt (fun p hp => hb p (List.mem_cons_of_mem q hp))]
      simp only [Option.some.injEq, Prod.mk.injEq]
      constructor
      · apply zipWith_congr_fun
        intro a b
        rw [List.filter_cons, hqskip a]
        simp
      · apply zipWith_congr_fun
        intro a b
        rw [List.filter_cons, hqskip a]
        simp
    · obtain ⟨h1, h2⟩ := hb q (List.mem_cons_self q ps) hq
      set r := (R.getD q.1 []).getD q.2.1 0 with hr
      have hrow : R[q.1]? = some (R.getD q.1 []) := by
        rw [List.getElem?_eq_getElem h1]
        exact congrArg some (List.getD_eq_getElem R [] h1).symm
      have hlook : ((R[q.1]?).bind fun row => row[q.2.1]?) = some r := by
        rw [hrow]
        show (R.getD q.1 [])[q.2.1]? = some r
        rw [List.getElem?_eq_getElem h2, hr]
        exact congrArg some (List.getD_eq_getElem _ 0 h2).symm
      have hqbin : ∀ w, binsAt R xc w q = decide (r = w) := by
        intro w
        unfold binsAt
        rw [decide_eq_true (not_lt.mp hq), Bool.true_and, ← hr]
      have hstep : radialLoop u R xc (q :: ps) (acc, cnt) =
          radialLoop u R xc ps
            (List.zipWith (fun ui ai => if ui = r then ai + q.2.2 else ai) u acc,
             List.zipWith (fun ui ci => if ui = r then ci + 1 else ci) u cnt) := by
        rw [radialLoop, if_neg hq, hlook]
      have hacc' :
          (List.zipWith (fun ui ai => if ui = r then ai + q.2.2 else ai) u acc).length
            = u.length := by
        rw [List.length_zipWith, hacc, Nat.min_self]
      have hcnt' :
          (List.zipWith (fun ui ci => if ui = r then ci + 1 else ci) u cnt).length
            = u.length := by
        rw [List.length_zipWith, hcnt, Nat.min_self]
      rw [hstep,
        ih _ _ hacc' hcnt' (fun p hp => hb p (List.mem_cons_of_mem q hp)),
        zipWith_same_fuse, zipWith_same_fuse]
      simp only [Option.some.injEq, Prod.mk.injEq]
      constructor
      · apply zipWith_congr_fun
        intro a b
        rw [List.filter_cons, hqbin a]
        rcases eq_or_ne r a with hra | hra
        · rw [if_pos (decide_eq_true hra), if_pos hra.symm]
          simp only [List.map_cons, List.sum_cons]
          ring
        · have hd : decide (r = a) = false := decide_eq_false hra
          rw [hd, if_neg (show ¬(a = r) from fun h => hra h.symm),
            if_neg Bool.false_ne_true]
      · apply zipWith_congr_fun
        intro a b
        rw [List.filter_cons, hqbin a]
        rcases eq_or_ne r a with hra | hra
        · rw [if_pos (decide_eq_true hra), if_pos hra.symm]
          simp only [List.length_cons]
          push_cast
          ring
        · have hd : decide (r = a) = false := decide_eq_false hra
          rw [hd, if_neg (show ¬(a = r) from fun h => hra h.symm),
            if_neg Bool.false_ne_true]

theorem zipWith_map_same (h : ℚ → ℚ → ℚ) (f g : ℚ → ℚ) :
    ∀ u : List ℚ,
      List.zipWith h (u.map f) (u.map g) = u.map fun x => h (f x) (g x)
  | [] => rfl
  | a :: u => by
    simp only [List.map, List.zipWith]
    exact congrArg _ (zipWith_map_same h f g u)

theorem radialR_length (im : List (List ℚ)) (xc yc : ℚ) :
    (radialR im xc yc).length = (im.headD []).length := by
  unfold radialR
  rw [List.length_map, linspace_length]

theorem radialR_getD_length (im : List (List ℚ)) (xc yc : ℚ) {i : ℕ}
    (h : i < (im.headD []).length) :
    ((radialR im xc yc).getD i []).length = im.length := by
  have hb : i < (radialR im xc yc).length := by rw [radialR_length]; exact h
  rw [List.getD_eq_getElem _ _ hb]
  unfold radialR
  simp only [List.getElem_map, List.length_map, linspace_length]

/-- Closed form of `radialAverage` on a rectangular `s × s` image: the
loop succeeds, the bins are the sorted distinct rounded radii, and each
bin's value is the intensity sum of its processed pixels divided by one
plus their number. -/
theorem radialAverage_closed (im : List (List ℚ)) (nm : String) (xc yc : ℚ)
    (s : ℕ) (hs : im.length = s) (hrect : ∀ row ∈ im, row.length = s) :
    radialAverage im nm (xc, yc) =
      some ⟨npUnique (radialR im xc yc).flatten,
            (npUnique (radialR im xc yc).flatten).map fun ur =>
              ((((enumPixels im).filter
                  (binsAt (radialR im xc yc) xc ur)).map fun p => p.2.2).sum) /
              (1 + ((((enumPixels im).filter
                  (binsAt (radialR im xc yc) xc ur)).length : ℕ) : ℚ)),
            nm ++ " radial average", "b"⟩ := by
  have hcols : (im.headD []).length = s := by
    cases im with
    | nil => simpa using hs.symm ▸ rfl
    | cons row rest => exact hrect row (List.mem_cons_self row rest)
  have hbounds : ∀ p ∈ enumPixels im, ¬((p.1 : ℚ) < xc) →
      p.1 < (radialR im xc yc).length ∧
      p.2.1 < ((radialR im xc yc).getD p.1 []).length := by
    rintro ⟨i, j, v⟩ hp -
    obtain ⟨hi, hj, -⟩ := mem_enumPixels.mp hp
    have hrowlen : (im.getD i []).length = s := by
      rw [List.getD_eq_getElem _ _ hi]
      exact hrect _ (List.getElem_mem hi)
    constructor
    · rw [radialR_length, hcols]
      exact hs ▸ hi
    · rw [radialR_getD_length im xc yc (by rw [hcols]; exact hs ▸ hi), hs]
      rw [hrowlen] at hj
      exact hs ▸ hj
  unfold radialAverage
  show ((match radialLoop (npUnique (radialR im xc yc).flatten)
      (radialR im xc yc) xc (enumPixels im)
      (List.replicate (npUnique (radialR im xc yc).flatten).length 0,
       List.replicate (npUnique (radialR im xc yc).flatten).length 1) with
    | none => none
    | some st =>
      some (RadialCurve.mk (npUnique (radialR im xc yc).flatten)
            (List.zipWith (fun a c => a / c) st.1 st.2)
            (nm ++ " radial average") "b")) : Option RadialCurve) =
    some (RadialCurve.mk (npUnique (radialR im xc yc).flatten)
          ((npUnique (radialR im xc yc).flatten).map fun ur =>
            ((((enumPixels im).filter
                (binsAt (radialR im xc yc) xc ur)).map fun p => p.2.2).sum) /
            (1 + ((((enumPixels im).filter
                (binsAt (radialR im xc yc) xc ur)).length : ℕ) : ℚ)))
          (nm ++ " radial average") "b")
  rw [radialLoop_eq (npUnique (radialR im xc yc).flatten) (radialR im xc yc) xc
      (enumPixels im) _ _ (List.length_replicate _ _) (List.length_replicate _ _)
      hbounds]
  rw [zipWith_replicate_right, zipWith_replicate_right]
  show some (RadialCurve.mk (npUnique (radialR im xc yc).flatten)
      (List.zipWith (fun a c => a / c)
        ((npUnique (radialR im xc yc).flatten).map fun ui =>
          0 + (((enumPixels im).filter
              (binsAt (radialR im xc yc) xc ui)).map fun p => p.2.2).sum)
        ((npUnique (radialR im xc yc).flatten).map fun ui =>
          1 + ((((enumPixels im).filter
              (binsAt (radialR im xc yc) xc ui)).length : ℕ) : ℚ)))
      (nm ++ " radial average") "b") =
    some (RadialCurve.mk (npUnique (radialR im xc yc).flatten)
      ((npUnique (radialR im xc yc).flatten).map fun ur =>
        ((((enumPixels im).filter
            (binsAt (radialR im xc yc) xc ur)).map fun p => p.2.2).sum) /
        (1 + ((((enumPixels im).filter
            (binsAt (radialR im xc yc) xc ur)).length : ℕ) : ℚ)))
      (nm ++ " radial average") "b")
  rw [zipWith_map_same]
  congr 2
  apply List.map_congr_left
  intro a _
  rw [zero_add]

-- ---------------------------------------------------------------------------
--           Claims C3, C4, C10
-- ---------------------------------------------------------------------------

/-- C3: on a square image with an in-bounds center, every y-value of the
returned curve is the intensity sum of the pixels whose rounded radius
`R[i][j]` equals that bin's radius and whose row index `i` is at least
`center[0]`, divided by `1 +` the number of such pixels (the bins are
the sorted distinct values of `R`, positionally aligned with `ydata`);
a bin with no contributing pixel therefore reports `0/(1+0) = 0`. -/
theorem radialAverage_binning (im : List (List ℚ)) (nm : String)
    (xc yc : ℚ) (s : ℕ) (hs : im.length = s)
    (hrect : ∀ row ∈ im, row.length = s)
    (hxc : 0 ≤ xc ∧ xc < (s : ℚ)) (hyc : 0 ≤ yc ∧ yc < (s : ℚ)) :
    radialAverage im nm (xc, yc) =
      some ⟨npUnique (radialR im xc yc).flatten,
            (npUnique (radialR im xc yc).flatten).map fun ur =>
              ((((enumPixels im).filter
                  (binsAt (radialR im xc yc) xc ur)).map fun p => p.2.2).sum) /
              (1 + ((((enumPixels im).filter
                  (binsAt (radialR im xc yc) xc ur)).length : ℕ) : ℚ)),
            nm ++ " radial average", "b"⟩ ∧
    ∀ ur, (enumPixels im).filter (binsAt (radialR im xc yc) xc ur) = [] →
      ((((enumPixels im).filter
          (binsAt (radialR im xc yc) xc ur)).map fun p => p.2.2).sum) /
      (1 + ((((enumPixels im).filter
          (binsAt (radialR im xc yc) xc ur)).length : ℕ) : ℚ)) = 0 := by
  refine ⟨radialAverage_closed im nm xc yc s hs hrect, ?_⟩
  intro ur h
  rw [h]
  simp

/-- C3 witness: a concrete 2×2 image with in-bounds center (1, 0). -/
theorem radialAverage_binning_witness :
    (([[1, 2], [3, 4]] : List (List ℚ)).length = 2 ∧
     (∀ row ∈ ([[1, 2], [3, 4]] : List (List ℚ)), row.length = 2) ∧
     ((0 : ℚ) ≤ 1 ∧ (1 : ℚ) < (2 : ℕ)) ∧ ((0 : ℚ) ≤ 0 ∧ (0 : ℚ) < (2 : ℕ))) ∧
    (radialAverage [[1, 2], [3, 4]] "t" (1, 0) =
      some ⟨npUnique (radialR [[1, 2], [3, 4]] 1 0).flatten,
            (npUnique (radialR [[1, 2], [3, 4]] 1 0).flatten).map fun ur =>
              ((((enumPixels [[1, 2], [3, 4]]).filter
                  (binsAt (radialR [[1, 2], [3, 4]] 1 0) 1 ur)).map
                    fun p => p.2.2).sum) /
              (1 + ((((enumPixels [[1, 2], [3, 4]]).filter
                  (binsAt (radialR [[1, 2], [3, 4]] 1 0) 1 ur)).length : ℕ) : ℚ)),
            "t radial average", "b"⟩ ∧
     ∀ ur, (enumPixels [[1, 2], [3, 4]]).filter
          (binsAt (radialR [[1, 2], [3, 4]] 1 0) 1 ur) = [] →
        ((((enumPixels [[1, 2], [3, 4]]).filter
            (binsAt (radialR [[1, 2], [3, 4]] 1 0) 1 ur)).map
              fun p => p.2.2).sum) /
        (1 + ((((enumPixels [[1, 2], [3, 4]]).filter
            (binsAt (radialR [[1, 2], [3, 4]] 1 0) 1 ur)).length : ℕ) : ℚ)) = 0) :=
  ⟨⟨rfl, by decide, ⟨by norm_num, by norm_num⟩, ⟨by norm_num, by norm_num⟩⟩,
   radialAverage_binning [[1, 2], [3, 4]] "t" 1 0 2 rfl (by decide)
     ⟨by norm_num, by norm_num⟩ ⟨by norm_num, by norm_num⟩⟩

/-- C4: on a square image with an in-bounds center, the returned curve's
x sequence is strictly sorted (ascending, no duplicates) and has the
same length as its y sequence. -/
theorem radialAverage_sorted_lengths (im : List (List ℚ)) (nm : String)
    (xc yc : ℚ) (s : ℕ) (hs : im.length = s)
    (hrect : ∀ row ∈ im, row.length = s)
    (hxc : 0 ≤ xc ∧ xc < (s : ℚ)) (hyc : 0 ≤ yc ∧ yc < (s : ℚ)) :
    ∃ c, radialAverage im nm (xc, yc) = some c ∧
      List.Sorted (· < ·) c.xdata ∧ c.xdata.Nodup ∧
      c.xdata.length = c.ydata.length := by
  refine ⟨_, radialAverage_closed im nm xc yc s hs hrect,
    npUnique_sorted _, npUnique_nodup _, ?_⟩
  rw [List.length_map]

/-- C4 witness: the same concrete 2×2 image and in-bounds center. -/
theorem radialAverage_sorted_lengths_witness :
    (([[1, 2], [3, 4]] : List (List ℚ)).length = 2 ∧
     (∀ row ∈ ([[1, 2], [3, 4]] : List (List ℚ)), row.length = 2) ∧
     ((0 : ℚ) ≤ 1 ∧ (1 : ℚ) < (2 : ℕ)) ∧ ((0 : ℚ) ≤ 0 ∧ (0 : ℚ) < (2 : ℕ))) ∧
    (∃ c, radialAverage [[1, 2], [3, 4]] "t" (1, 0) = some c ∧
      List.Sorted (· < ·) c.xdata ∧ c.xdata.Nodup ∧
      c.xdata.length = c.ydata.length) :=
  ⟨⟨rfl, by decide, ⟨by norm_num, by norm_num⟩, ⟨by norm_num, by norm_num⟩⟩,
   radialAverage_sorted_lengths [[1, 2], [3, 4]] "t" 1 0 2 rfl (by decide)
     ⟨by norm_num, by norm_num⟩ ⟨by norm_num, by norm_num⟩⟩

/-- C10 counterexample: the claim "for every non-square image the
binning loop indexes the radius grid out of bounds and fails" is false:
on a 2×1 image with the default center `[562, 549]`, every pixel's row
index is below `center[0]`, the loop body never touches `R`, and
`radialAverage` returns a curve rather than failing. -/
theorem radialAverage_nonsquare_counterexample :
    radialAverage [[0], [0]] "im" (562, 549) ≠ none := by
  have hloop : ∀ (u : List ℚ) (R : List (List ℚ)) (st : List ℚ × List ℚ),
      radialLoop u R 562 [(0, 0, (0 : ℚ)), (1, 0, (0 : ℚ))] st = some st := by
    intro u R st
    rw [radialLoop, if_pos (by norm_num : (((0 : ℕ) : ℚ)) < 562),
      radialLoop, if_pos (by norm_num : (((1 : ℕ) : ℚ)) < 562), radialLoop]
  have henum : enumPixels [[(0 : ℚ)], [0]] = [(0, 0, 0), (1, 0, 0)] := rfl
  have hval : radialAverage [[0], [0]] "im" (562, 549) =
      some ⟨npUnique (radialR [[0], [0]] 562 549).flatten,
        List.zipWith (fun a c => a / c)
          (List.replicate (npUnique (radialR [[0], [0]] 562 549).flatten).length 0)
          (List.replicate (npUnique (radialR [[0], [0]] 562 549).flatten).length 1),
        "im radial average", "b"⟩ := by
    unfold radialAverage
    show ((match radialLoop (npUnique (radialR [[0], [0]] 562 549).flatten)
        (radialR [[0], [0]] 562 549) 562 (enumPixels [[0], [0]])
        (List.replicate (npUnique (radialR [[0], [0]] 562 549).flatten).length 0,
         List.replicate (npUnique (radialR [[0], [0]] 562 549).flatten).length 1)
        with
      | none => none
      | some st =>
        some (RadialCurve.mk (npUnique (radialR [[0], [0]] 562 549).flatten)
          (List.zipWith (fun a c => a / c) st.1 st.2)
          ("im radial average") "b")) : Option RadialCurve) =
      some (RadialCurve.mk (npUnique (radialR [[0], [0]] 562 549).flatten)
        (List.zipWith (fun a c => a / c)
          (List.replicate (npUnique (radialR [[0], [0]] 562 549).flatten).length 0)
          (List.replicate (npUnique (radialR [[0], [0]] 562 549).flatten).length 1))
        ("im radial average") "b")
    rw [henum, hloop]
  rw [hval]
  exact Option.some_ne_none _

/-- C10 (amended): for every rectangular non-square image in which at
least one pixel passes the row cutoff (`center[0] ≤ rows - 1`), the
binning loop indexes the transposed-shape radius grid out of bounds and
`radialAverage` fails with an index error (returns no curve); when every
row index is below `center[0]` — e.g. any image of at most 562 rows
under the default center — the loop body never runs and a curve is
returned, so the failure is not unconditional. -/
theorem radialAverage_nonsquare_oob (im : List (List ℚ)) (nm : String)
    (xc yc : ℚ) (cols : ℕ)
    (hrect : ∀ row ∈ im, row.length = cols)
    (hne : im.length ≠ cols) (hrows : 1 ≤ im.length) (hcols : 1 ≤ cols)
    (hxc : xc ≤ (im.length : ℚ) - 1) :
    radialAverage im nm (xc, yc) = none := by
  have hhead : (im.headD []).length = cols := by
    cases im with
    | nil => simp at hrows
    | cons row rest => exact hrect row (List.mem_cons_self row rest)
  have hRlen : (radialR im xc yc).length = cols := by
    rw [radialR_length, hhead]
  have hi : im.length - 1 < im.length := Nat.sub_lt hrows one_pos
  have hrowlen : (im.getD (im.length - 1) []).length = cols := by
    rw [List.getD_eq_getElem _ _ hi]
    exact hrect _ (List.getElem_mem hi)
  have hmem : (im.length - 1, cols - 1,
      (im.getD (im.length - 1) []).getD (cols - 1) 0) ∈ enumPixels im :=
    mem_enumPixels.mpr
      ⟨hi, by rw [hrowlen]; exact Nat.sub_lt hcols one_pos, rfl⟩
  have hproc : ¬(((im.length - 1 : ℕ) : ℚ) < xc) := by
    rw [not_lt]
    calc xc ≤ (im.length : ℚ) - 1 := hxc
      _ = ((im.length - 1 : ℕ) : ℚ) := by
          rw [Nat.cast_sub hrows]; norm_num
  have hlooknone :
      (((radialR im xc yc)[im.length - 1]?).bind fun row =>
        row[cols - 1]?) = none := by
    rcases Nat.lt_or_ge (im.length - 1) cols with hlt | hge
    · have hrowsome : (radialR im xc yc)[im.length - 1]? =
          some ((radialR im xc yc).getD (im.length - 1) []) := by
        rw [List.getElem?_eq_getElem (by rw [hRlen]; exact hlt)]
        exact congrArg some (List.getD_eq_getElem _ [] _).symm
      rw [hrowsome]
      show ((radialR im xc yc).getD (im.length - 1) [])[cols - 1]? = none
      apply List.getElem?_eq_none
      rw [radialR_getD_length im xc yc (by rw [hhead]; exact hlt)]
      omega
    · rw [List.getElem?_eq_none (by rw [hRlen]; exact hge)]
      rfl
  have hloop := radialLoop_none (npUnique (radialR im xc yc).flatten)
    (radialR im xc yc) xc (enumPixels im)
    (List.replicate (npUnique (radialR im xc yc).flatten).length 0,
     List.replicate (npUnique (radialR im xc yc).flatten).length 1)
    ⟨_, hmem, hproc, hlooknone⟩
  unfold radialAverage
  show ((match radialLoop (npUnique (radialR im xc yc).flatten)
      (radialR im xc yc) xc (enumPixels im)
      (List.replicate (npUnique (radialR im xc yc).flatten).length 0,
       List.replicate (npUnique (radialR im xc yc).flatten).length 1) with
    | none => none
    | some st =>
      some (RadialCurve.mk (npUnique (radialR im xc yc).flatten)
        (List.zipWith (fun a c => a / c) st.1 st.2)
        (nm ++ " radial average") "b")) : Option RadialCurve) = none
  rw [hloop]

/-- C10 witness: a rectangular 3×2 image with center row 2 (inside the
image) fails with an index error. -/
theorem radialAverage_nonsquare_oob_witness :
    ((∀ row ∈ ([[1, 2], [3, 4], [5, 6]] : List (List ℚ)), row.length = 2) ∧
     ([[1, 2], [3, 4], [5, 6]] : List (List ℚ)).length ≠ 2 ∧
     1 ≤ ([[1, 2], [3, 4], [5, 6]] : List (List ℚ)).length ∧ (1 : ℕ) ≤ 2 ∧
     (2 : ℚ) ≤ (([[1, 2], [3, 4], [5, 6]] : List (List ℚ)).length : ℚ) - 1) ∧
    radialAverage [[1, 2], [3, 4], [5, 6]] "w" (2, 0) = none :=
  ⟨⟨by decide, by decide, by decide, by decide, by norm_num⟩,
   radialAverage_nonsquare_oob [[1, 2], [3, 4], [5, 6]] "w" 2 0 2
     (by decide) (by decide) (by decide) (by decide) (by norm_num)⟩

-- ---------------------------------------------------------------------------
--           Claim C8: subtraction of a curve from itself
-- ---------------------------------------------------------------------------

/-- `numpy.interp` evaluated at a grid point of a strictly increasing
grid reproduces the sample value exactly. -/
theorem npInterp_self :
    ∀ (xp fp : List ℚ), List.Sorted (· < ·) xp → fp.length = xp.length →
      ∀ (k : ℕ) (hk : k < xp.length) (hk2 : k < fp.length),
        npInterp (xp[k]) xp fp = fp[k] := by
  intro xp
  induction xp with
  | nil => intro fp _ _ k hk; exact absurd hk (by simp)
  | cons x0 xtl ih =>
    intro fp hsort hlen k hk hk2
    cases fp with
    | nil => simp at hlen
    | cons y0 ytl =>
      cases k with
      | zero =>
        cases xtl with
        | nil => rfl
        | cons x1 xs =>
          cases ytl with
          | nil => simp at hlen
          | cons y1 ys =>
            show npInterp x0 (x0 :: x1 :: xs) (y0 :: y1 :: ys) = y0
            rw [npInterp, if_pos le_rfl]
      | succ k' =>
        cases xtl with
        | nil => exact absurd hk (by simp)
        | cons x1 xs =>
          cases ytl with
          | nil => simp at hlen
          | cons y1 ys =>
            have h01 : x0 < x1 := (List.sorted_cons.mp hsort).1 x1
              (List.mem_cons_self x1 xs)
            have htailsort : List.Sorted (· < ·) (x1 :: xs) :=
              (List.sorted_cons.mp hsort).2
            cases k' with
            | zero =>
              show npInterp ((x0 :: x1 :: xs)[1]) (x0 :: x1 :: xs)
                  (y0 :: y1 :: ys) = (y0 :: y1 :: ys)[1]
              have hx : (x0 :: x1 :: xs)[1] = x1 := rfl
              rw [hx, npInterp, if_neg (not_le.mpr h01), if_pos le_rfl]
              have hne : x1 - x0 ≠ 0 := sub_ne_zero.mpr h01.ne'
              show y0 + (y1 - y0) * (x1 - x0) / (x1 - x0) = y1
              rw [mul_div_assoc, div_self hne, mul_one]
              ring
            | succ k'' =>
              have hk' : k'' + 1 < (x1 :: xs).length := by
                simpa using hk
              have hk2' : k'' + 1 < (y1 :: ys).length := by
                simpa using hk2
              have hxval : (x0 :: x1 :: xs)[k'' + 2] = (x1 :: xs)[k'' + 1] :=
                List.getElem_cons_succ ..
              have h0lt : x0 < (x1 :: xs)[k'' + 1] :=
                (List.sorted_cons.mp hsort).1 _ (List.getElem_mem hk')
              have h1lt : x1 < (x1 :: xs)[k'' + 1] := by
                have h := (List.pairwise_iff_getElem.mp htailsort) 0 (k'' + 1)
                  (by simp) hk' (by omega)
                simpa using h
              show npInterp ((x0 :: x1 :: xs)[k'' + 2]) (x0 :: x1 :: xs)
                  (y0 :: y1 :: ys) = (y0 :: y1 :: ys)[k'' + 2]
              rw [hxval, npInterp, if_neg (not_le.mpr h0lt),
                if_neg (not_le.mpr h1lt)]
              have hrec := ih (y1 :: ys) htailsort (by simpa using hlen)
                (k'' + 1) hk' hk2'
              rw [hrec]
              exact (List.getElem_cons_succ ..).symm

/-- C8: subtracting a RadialCurve with strictly increasing x from itself
yields the same x sequence and identically zero y (interpolating a curve
onto its own grid reproduces it exactly). -/
theorem sub_self_zero (c : RadialCurve)
    (hsort : List.Sorted (· < ·) c.xdata)
    (hlen : c.ydata.length = c.xdata.length) :
    (c.sub c).xdata = c.xdata ∧
    (c.sub c).ydata = List.replicate c.xdata.length 0 := by
  refine ⟨rfl, ?_⟩
  show List.zipWith (fun ya v => ya - v) c.ydata
      (c.xdata.map fun x => npInterp x c.xdata c.ydata) =
    List.replicate c.xdata.length 0
  have hmap : (c.xdata.map fun x => npInterp x c.xdata c.ydata) = c.ydata := by
    apply List.ext_getElem
    · rw [List.length_map, hlen]
    · intro k h1 h2
      rw [List.getElem_map]
      exact npInterp_self c.xdata c.ydata hsort hlen k (by simpa using h1) h2
  rw [hmap]
  have hz : ∀ l : List ℚ,
      List.zipWith (fun ya v => ya - v) l l = List.replicate l.length 0 := by
    intro l
    induction l with
    | nil => rfl
    | cons a tl ihl =>
      simp only [List.zipWith, List.length_cons, List.replicate, sub_self]
      rw [ihl]
  rw [hz, hlen]

/-- C8 witness: a concrete three-point curve minus itself is zero. -/
theorem sub_self_zero_witness :
    (List.Sorted (· < ·) ([1, 2, 3] : List ℚ) ∧
     ([4, 5, 6] : List ℚ).length = ([1, 2, 3] : List ℚ).length) ∧
    ((RadialCurve.mk [1, 2, 3] [4, 5, 6] "c" "b").sub
        (RadialCurve.mk [1, 2, 3] [4, 5, 6] "c" "b")).xdata = [1, 2, 3] ∧
    ((RadialCurve.mk [1, 2, 3] [4, 5, 6] "c" "b").sub
        (RadialCurve.mk [1, 2, 3] [4, 5, 6] "c" "b")).ydata =
      List.replicate ([1, 2, 3] : List ℚ).length 0 :=
  ⟨⟨by norm_num [List.sorted_cons], rfl⟩,
   sub_self_zero (RadialCurve.mk [1, 2, 3] [4, 5, 6] "c" "b")
     (by norm_num [List.sorted_cons]) rfl⟩

-- ---------------------------------------------------------------------------
--           BACKGROUND ESTIMATION  (core.py lines 83-170)
-- ---------------------------------------------------------------------------

/-- The five pseudo-Voigt parameters `(height, xc, width_g, width_l,
constant)` returned by `curve_fit(pseudoVoigt, ...)`. -/
structure PVParams where
  height : ℚ
  xc : ℚ
  width_g : ℚ
  width_l : ℚ
  constant : ℚ
deriving DecidableEq, Repr

/-- The deterministic initial guess of `core.py` lines 113-114:
height = max of the min-subtracted window, center = window midpoint,
both widths 0.1, offset 0. Only the GUESS uses the normalized window. -/
def pvGuess (xchunk ychunk : List ℚ) : PVParams :=
  ⟨npMax (ychunk.map fun y => y - npMin ychunk),
   (npMax xchunk - npMin xchunk) / 2 + npMin xchunk, 1/10, 1/10, 0⟩

/-- The window extraction of `core.py` lines 102-107: nearest x-index to
the feature, then the fancy-indexed symmetric range of `2·chunk+1`
samples (`none` on an index error). -/
def windowAt (c : RadialCurve) (chunk_size : ℕ) (feature : ℚ) :
    Option (List ℚ × List ℚ) :=
  let ind := argminAbs c.xdata feature
  let chunk_ind := npArange ((ind : ℤ) - chunk_size) ((ind : ℤ) + chunk_size + 1)
  match chunk_ind.mapM (npIdx c.xdata), chunk_ind.mapM (npIdx c.ydata) with
  | some xs, some ys => some (xs, ys)
  | _, _ => none

/-- `core.py` `RadialCurve.prototypeInelasticBGSubstract`: fit a
pseudo-Voigt + constant per feature window (the solver `F` abstracts
`scipy.optimize.curve_fit` and receives the window handed to it by the
code — the RAW `ychunk`, line 115), record `offset + ychunk.min()` per
window sample (line 117), interpolate the stitched constants over the
whole domain, and also return the diagnostic Voigt profiles. -/
def prototypeInelasticBGSubstract (E : ℚ → ℚ)
    (F : List ℚ → List ℚ → PVParams → PVParams) (c : RadialCurve)
    (points : List (ℚ × ℚ)) (chunk_size : ℕ := 5) :
    Option (RadialCurve × List RadialCurve) :=
  match (points.map Prod.fst).mapM (windowAt c chunk_size) with
  | none => none
  | some ws =>
    let voigt_parameters := ws.map fun w => F w.1 w.2 (pvGuess w.1 w.2)
    let constants := (ws.zip voigt_parameters).map fun wp =>
      wp.1.1.map fun _ => wp.2.constant + npMin wp.1.2
    let background := RadialCurve.mk c.xdata
      (c.xdata.map fun x =>
        npInterp x (ws.map Prod.fst).flatten constants.flatten)
      "background" "b"
    let profiles := voigt_parameters.enum.map fun ip =>
      RadialCurve.mk c.xdata
        (c.xdata.map fun x =>
          pseudoVoigt E x ip.2.height ip.2.xc ip.2.width_g ip.2.width_l
            ip.2.constant)
        ("peak" ++ toString ip.1) "b"
    some (background, profiles)

/-- Modelled from the spec (claim C5's words), for comparison with
`prototypeInelasticBGSubstract`: identical except that the least-squares
solver is handed the NORMALIZED window (`ychunk - ychunk.min()`), i.e.
"the normalized window is what is fitted". -/
def prototypeInelasticBGSubstractSpec (E : ℚ → ℚ)
    (F : List ℚ → List ℚ → PVParams → PVParams) (c : RadialCurve)
    (points : List (ℚ × ℚ)) (chunk_size : ℕ := 5) :
    Option (RadialCurve × List RadialCurve) :=
  match (points.map Prod.fst).mapM (windowAt c chunk_size) with
  | none => none
  | some ws =>
    let voigt_parameters := ws.map fun w =>
      F w.1 (w.2.map fun y => y - npMin w.2) (pvGuess w.1 w.2)
    let constants := (ws.zip voigt_parameters).map fun wp =>
      wp.1.1.map fun _ => wp.2.constant + npMin wp.1.2
    let background := RadialCurve.mk c.xdata
      (c.xdata.map fun x =>
        npInterp x (ws.map Prod.fst).flatten constants.flatten)
      "background" "b"
    let profiles := voigt_parameters.enum.map fun ip =>
      RadialCurve.mk c.xdata
        (c.xdata.map fun x =>
          pseudoVoigt E x ip.2.height ip.2.xc ip.2.width_g ip.2.width_l
            ip.2.constant)
        ("peak" ++ toString ip.1) "b"
    some (background, profiles)

theorem zip_map_constants (F : List ℚ → List ℚ → PVParams → PVParams) :
    ∀ ws : List (List ℚ × List ℚ),
      ((ws.zip (ws.map fun w => F w.1 w.2 (pvGuess w.1 w.2))).map fun wp =>
        wp.1.1.map fun _ => wp.2.constant + npMin wp.1.2) =
      ws.map fun w =>
        w.1.map fun _ => (F w.1 w.2 (pvGuess w.1 w.2)).constant + npMin w.2
  | [] => rfl
  | w :: ws => by
    simp only [List.map_cons, List.zip_cons_cons]
    exact congrArg (List.cons _) (zip_map_constants F ws)

/-- C5 counterexample: the code fits the RAW window, not the normalized
one. With the solver abstracted as "return the data's maximum as the
offset", the curve `x = [0,1,2], y = [10,20,30]` with one anchor at
`x = 1` and `chunk = 1` gives a stitched background of `30 + 10 = 40`
under the code (raw window max 30) but `20 + 10 = 30` under the claim's
normalized-window fit (normalized max 20): the two functions differ. -/
theorem prototype_normalized_fit_counterexample :
    prototypeInelasticBGSubstract (fun _ => 0)
      (fun _ yc _ => PVParams.mk 0 0 0 0 (npMax yc))
      (RadialCurve.mk [0, 1, 2] [10, 20, 30] "c" "b") [(1, 0)] 1 ≠
    prototypeInelasticBGSubstractSpec (fun _ => 0)
      (fun _ yc _ => PVParams.mk 0 0 0 0 (npMax yc))
      (RadialCurve.mk [0, 1, 2] [10, 20, 30] "c" "b") [(1, 0)] 1 := by
  intro h
  have h1 : (prototypeInelasticBGSubstract (fun _ => 0)
      (fun _ yc _ => PVParams.mk 0 0 0 0 (npMax yc))
      (RadialCurve.mk [0, 1, 2] [10, 20, 30] "c" "b") [(1, 0)] 1).map
        (fun r => r.1.ydata) = some [40, 40, 40] := by
    with_unfolding_all rfl
  have h2 : (prototypeInelasticBGSubstractSpec (fun _ => 0)
      (fun _ yc _ => PVParams.mk 0 0 0 0 (npMax yc))
      (RadialCurve.mk [0, 1, 2] [10, 20, 30] "c" "b") [(1, 0)] 1).map
        (fun r => r.1.ydata) = some [30, 30, 30] := by
    with_unfolding_all rfl
  have h3 := congrArg
    (Option.map fun r : RadialCurve × List RadialCurve => r.1.ydata) h
  rw [h1, h2] at h3
  have h4 := Option.some.inj h3
  simp only [List.cons.injEq] at h4
  norm_num at h4

/-- C5 (amended): per feature window, the window minimum enters only the
initial guess (`pvGuess`, height = max of the normalized window) and the
recorded local background level, which is the fitted offset plus the
window's pre-normalization minimum; the least-squares solver itself is
handed the RAW window `ychunk`; the stitched background interpolates
these per-window constant levels over the whole x-domain. -/
theorem prototype_constants (E : ℚ → ℚ)
    (F : List ℚ → List ℚ → PVParams → PVParams) (c : RadialCurve)
    (points : List (ℚ × ℚ)) (chunk_size : ℕ) (ws : List (List ℚ × List ℚ))
    (hws : (points.map Prod.fst).mapM (windowAt c chunk_size) = some ws) :
    prototypeInelasticBGSubstract E F c points chunk_size = some
      (RadialCurve.mk c.xdata
        (c.xdata.map fun x => npInterp x (ws.map Prod.fst).flatten
          (ws.map fun w =>
            w.1.map fun _ =>
              (F w.1 w.2 (pvGuess w.1 w.2)).constant + npMin w.2).flatten)
        "background" "b",
       (ws.map fun w => F w.1 w.2 (pvGuess w.1 w.2)).enum.map fun ip =>
         RadialCurve.mk c.xdata
           (c.xdata.map fun x =>
             pseudoVoigt E x ip.2.height ip.2.xc ip.2.width_g ip.2.width_l
               ip.2.constant)
           ("peak" ++ toString ip.1) "b") := by
  unfold prototypeInelasticBGSubstract
  rw [hws]
  show some
      (RadialCurve.mk c.xdata
        (c.xdata.map fun x => npInterp x (ws.map Prod.fst).flatten
          ((ws.zip (ws.map fun w => F w.1 w.2 (pvGuess w.1 w.2))).map fun wp =>
            wp.1.1.map fun _ => wp.2.constant + npMin wp.1.2).flatten)
        "background" "b",
       (ws.map fun w => F w.1 w.2 (pvGuess w.1 w.2)).enum.map fun ip =>
         RadialCurve.mk c.xdata
           (c.xdata.map fun x =>
             pseudoVoigt E x ip.2.height ip.2.xc ip.2.width_g ip.2.width_l
               ip.2.constant)
           ("peak" ++ toString ip.1) "b") = _
  rw [zip_map_constants]

/-- C5 witness: the concrete three-point curve with one anchor. -/
theorem prototype_constants_witness :
    (([((1 : ℚ), (0 : ℚ))].map Prod.fst).mapM
      (windowAt (RadialCurve.mk [0, 1, 2] [10, 20, 30] "c" "b") 1) =
      some [([0, 1, 2], [10, 20, 30])]) ∧
    prototypeInelasticBGSubstract (fun _ => 0)
      (fun _ yc _ => PVParams.mk 0 0 0 0 (npMax yc))
      (RadialCurve.mk [0, 1, 2] [10, 20, 30] "c" "b") [(1, 0)] 1 = some
      (RadialCurve.mk [0, 1, 2]
        (([0, 1, 2] : List ℚ).map fun x => npInterp x
          (([([0, 1, 2], [10, 20, 30])] :
              List (List ℚ × List ℚ)).map Prod.fst).flatten
          (([([0, 1, 2], [10, 20, 30])] :
              List (List ℚ × List ℚ)).map (fun w =>
            w.1.map fun _ =>
              ((fun (_ : List ℚ) yc (_ : PVParams) =>
                  PVParams.mk 0 0 0 0 (npMax yc)) w.1 w.2
                (pvGuess w.1 w.2)).constant + npMin w.2)).flatten)
        "background" "b",
       (([([0, 1, 2], [10, 20, 30])] :
          List (List ℚ × List ℚ)).map fun w =>
            (fun (_ : List ℚ) yc (_ : PVParams) =>
              PVParams.mk 0 0 0 0 (npMax yc)) w.1 w.2
              (pvGuess w.1 w.2)).enum.map fun ip =>
         RadialCurve.mk [0, 1, 2]
           (([0, 1, 2] : List ℚ).map fun x =>
             pseudoVoigt (fun _ => 0) x ip.2.height ip.2.xc ip.2.width_g
               ip.2.width_l ip.2.constant)
           ("peak" ++ toString ip.1) "b") :=
  ⟨by with_unfolding_all rfl,
   prototype_constants (fun _ => 0)
     (fun _ yc _ => PVParams.mk 0 0 0 0 (npMax yc))
     (RadialCurve.mk [0, 1, 2] [10, 20, 30] "c" "b") [(1, 0)] 1
     [([0, 1, 2], [10, 20, 30])] (by with_unfolding_all rfl)⟩

/-- The fit-family selector of `inelasticBG` (docstring: allowed values
are `biexp` and `bilor`). -/
inductive FitFam where
  | biexp : FitFam
  | bilor : FitFam
deriving DecidableEq, Repr

/-- The six parameters `a, b, c, d, e, f` of a background fit, in the
positional order of `core.py` line 167. -/
structure BGParams where
  a : ℚ
  b : ℚ
  c : ℚ
  d : ℚ
  e : ℚ
  f : ℚ
deriving DecidableEq, Repr

/-- `function = bilor if fit == 'bilor' else biexp` (`core.py` line 146),
applied positionally to the six parameters (line 167-168). -/
def famFun (E : ℚ → ℚ) (fit : FitFam) (x : ℚ) (p : BGParams) : ℚ :=
  match fit with
  | FitFam.bilor => bilor x p.a p.b p.c p.d p.e p.f
  | FitFam.biexp => biexp E x p.a p.b p.c p.d p.e p.f

/-- The per-family initial guesses of `core.py` lines 153-154, built
from the curve's own extremes and fixed literal rate constants. -/
def guesses (fit : FitFam) (c : RadialCurve) : BGParams :=
  match fit with
  | FitFam.biexp =>
    ⟨npMax c.ydata / 2, 1/50, npMax c.ydata / 2, 1/150,
     npMin c.ydata, npMin c.xdata⟩
  | FitFam.bilor =>
    ⟨npMin c.xdata, npMax c.ydata / (3/2), npMax c.ydata / 2, 50, 150,
     npMin c.ydata⟩

/-- `core.py` `RadialCurve.inelasticBG`: interpolate the curve at the
anchor x-positions, least-squares fit the chosen family (the solver `G`
abstracts `scipy.optimize.curve_fit`; `none` models a `RuntimeError`),
fall back to the initial guess when the solver fails, and evaluate the
resulting function over the entire original x-domain. -/
def inelasticBG (E : ℚ → ℚ)
    (G : (ℚ → BGParams → ℚ) → List ℚ → List ℚ → BGParams → Option BGParams)
    (c : RadialCurve) (points : List (ℚ × ℚ)) (fit : FitFam) : RadialCurve :=
  let function := famFun E fit
  let x := points.map Prod.fst
  let y := x.map fun xi => npInterp xi c.xdata c.ydata
  let optimal_parameters :=
    match G function x y (guesses fit c) with
    | some p => p
    | none => guesses fit c
  RadialCurve.mk c.xdata
    (c.xdata.map fun t => function t optimal_parameters)
    ("IBG " ++ c.name) "b"

/-- C6: when the nonlinear solver fails to converge (raises, modelled as
returning `none`), `inelasticBG` returns the background built from the
family's initial guess unmodified and never aborts: the result is the
chosen family's function at the guess parameters, evaluated over the
entire original x-domain. -/
theorem inelasticBG_fallback (E : ℚ → ℚ)
    (G : (ℚ → BGParams → ℚ) → List ℚ → List ℚ → BGParams → Option BGParams)
    (c : RadialCurve) (points : List (ℚ × ℚ)) (fit : FitFam)
    (hfail : G (famFun E fit) (points.map Prod.fst)
      ((points.map Prod.fst).map fun xi => npInterp xi c.xdata c.ydata)
      (guesses fit c) = none) :
    inelasticBG E G c points fit =
      RadialCurve.mk c.xdata
        (c.xdata.map fun t => famFun E fit t (guesses fit c))
        ("IBG " ++ c.name) "b" := by
  have hmatch : (match G (famFun E fit) (points.map Prod.fst)
      ((points.map Prod.fst).map fun xi => npInterp xi c.xdata c.ydata)
      (guesses fit c) with
    | some p => p
    | none => guesses fit c) = guesses fit c := by rw [hfail]
  unfold inelasticBG
  show RadialCurve.mk c.xdata
      (c.xdata.map fun t => famFun E fit t
        (match G (famFun E fit) (points.map Prod.fst)
            ((points.map Prod.fst).map fun xi => npInterp xi c.xdata c.ydata)
            (guesses fit c) with
          | some p => p
          | none => guesses fit c))
      ("IBG " ++ c.name) "b" =
    RadialCurve.mk c.xdata
      (c.xdata.map fun t => famFun E fit t (guesses fit c))
      ("IBG " ++ c.name) "b"
  rw [hmatch]

/-- C6 witness: an always-failing solver on a concrete curve. -/
theorem inelasticBG_fallback_witness :
    ((fun (_ : ℚ → BGParams → ℚ) (_ : List ℚ) (_ : List ℚ) (_ : BGParams) =>
        (none : Option BGParams)) (famFun id FitFam.biexp)
      ([((0 : ℚ), (1 : ℚ))].map Prod.fst)
      (([((0 : ℚ), (1 : ℚ))].map Prod.fst).map fun xi =>
        npInterp xi [0, 1] [2, 3])
      (guesses FitFam.biexp (RadialCurve.mk [0, 1] [2, 3] "n" "b")) = none) ∧
    inelasticBG id
      (fun _ _ _ _ => (none : Option BGParams))
      (RadialCurve.mk [0, 1] [2, 3] "n" "b") [(0, 1)] FitFam.biexp =
      RadialCurve.mk [0, 1]
        (([0, 1] : List ℚ).map fun t => famFun id FitFam.biexp t
          (guesses FitFam.biexp (RadialCurve.mk [0, 1] [2, 3] "n" "b")))
        ("IBG " ++ "n") "b" :=
  ⟨rfl,
   inelasticBG_fallback id (fun _ _ _ _ => (none : Option BGParams))
     (RadialCurve.mk [0, 1] [2, 3] "n" "b") [(0, 1)] FitFam.biexp rfl⟩
